import Mathlib

set_option linter.unusedSectionVars false

/-!
Shallow embedding of `projected-hash-map` (src/projected-hash-map/src/lib.rs).

The crate defines `ProjectedHashMap<T, V>`, a container storing values of
type `V` keyed by a projection `V -> T` (the `Borrow<T>` impl of `V`).
Internally it is a `HashSet<HashMapHelper<T, V>>`, where `HashMapHelper`
wraps an owned value and delegates its `PartialEq`/`Hash` impls to the
borrowed projection, so two helpers are equal iff their projected keys are.

We model the `HashSet` contents as a `List` of helpers compared by projected
key (iteration order of a hash set is unspecified, and all claims are stated
up to that order).  The projection (Rust's `Borrow<T>` impl) is passed as an
explicit function `proj : V → K`.  Hashing is not modelled: the `Hash` impl
delegates to the key exactly like `eq`, so it is consistent with equality and
the set's observable behaviour is fixed by key equality alone.
-/

namespace ProjectedHashMapSpec

/-- Mirrors `HashMapHelper<T, V>`: wraps an owned value `inner` (the
`PhantomData` field has no runtime content).  Its `PartialEq`/`Hash` impls
delegate to `inner.borrow() : &T`, i.e. two helpers collide iff their
projected keys are equal; this is what `helperKey` below captures. -/
structure HashMapHelper (V : Type) where
  inner : V
deriving DecidableEq

/-- The key a helper exposes to the backing set: `self.inner.borrow()`,
i.e. the projection of the wrapped value (used by `HashMapHelper::eq`
and `HashMapHelper::hash`). -/
def helperKey {K V : Type} (proj : V → K) (e : HashMapHelper V) : K :=
  proj e.inner

/-- Mirrors `ProjectedHashMap<T, V>`: the `repr : HashSet<HashMapHelper<T,V>>`
field, modelled as a list of helpers (the `PhantomData` field is dropped). -/
structure ProjectedHashMap (V : Type) where
  repr : List (HashMapHelper V)
deriving DecidableEq

namespace ProjectedHashMap

variable {K V : Type} [DecidableEq K]

/-- Mirrors `Default::default`: `Self { repr: HashSet::new(), pd: PhantomData }`. -/
def new (V : Type) : ProjectedHashMap V := ⟨[]⟩

/-- Mirrors `get`: `self.repr.get(key).map(|v| &v.inner)`.  `HashSet::get`
returns the element equal (by the helper's key-delegating `eq`) to `key`,
if any; on the list model this is the first helper whose projected key is
`key`.  `get` takes `&self` in the source, so it is a pure function of the
state here: it returns only the optional value and no new state. -/
def get (proj : V → K) (s : ProjectedHashMap V) (key : K) : Option V :=
  (s.repr.find? (fun e => decide (helperKey proj e = key))).map (fun e => e.inner)

/-- Mirrors `insert`: `self.repr.replace(HashMapHelper { inner: edge, pd })`.
`HashSet::replace` adds the new element and drops the existing element equal
to it (equal, for helpers, meaning: with the same projected key), if any;
on the list model the helper for `edge` is added and any helper with the
same projected key is dropped. -/
def insert (proj : V → K) (s : ProjectedHashMap V) (edge : V) : ProjectedHashMap V :=
  ⟨{ inner := edge } :: s.repr.filter (fun e => decide (helperKey proj e ≠ proj edge))⟩

/-- Mirrors `is_empty`: `self.repr.is_empty()`. -/
def is_empty (s : ProjectedHashMap V) : Bool :=
  s.repr.isEmpty

/-- Mirrors `iter`: `self.repr.iter().map(|it| &it.inner)` — the stored
values, one per helper in the set, in the set's (unspecified) order. -/
def iter (s : ProjectedHashMap V) : List V :=
  s.repr.map (fun e => e.inner)

/-- Mirrors `len`: `self.repr.len()`. -/
def len (s : ProjectedHashMap V) : Nat :=
  s.repr.length

/-- Mirrors `remove`: `self.repr.remove(key)` — `HashSet::remove` drops the
element equal to `key` (by the key-delegating equality) if present and
returns whether one was present.  The returned pair is (returned bool,
state of `self` after the call). -/
def remove (proj : V → K) (s : ProjectedHashMap V) (key : K) :
    Bool × ProjectedHashMap V :=
  (s.repr.any (fun e => decide (helperKey proj e = key)),
   ⟨s.repr.filter (fun e => decide (helperKey proj e ≠ key))⟩)

/-- The multiset of projected keys currently stored (specification device,
not an operation of the crate). -/
def keys (proj : V → K) (s : ProjectedHashMap V) : List K :=
  s.repr.map (helperKey proj)

/-- The container's representation invariant: at most one stored value per
distinct projected key, i.e. the list of projected keys has no duplicate. -/
def KeysNodup (proj : V → K) (s : ProjectedHashMap V) : Prop :=
  (keys proj s).Nodup

end ProjectedHashMap

/-- A client-visible mutating operation of the container. -/
inductive Op (K V : Type) where
  | ins (v : V)
  | rem (k : K)
deriving DecidableEq

/-- One mutating call applied to a state. -/
def step {K V : Type} [DecidableEq K] (proj : V → K)
    (s : ProjectedHashMap V) : Op K V → ProjectedHashMap V
  | .ins v => s.insert proj v
  | .rem k => (s.remove proj k).2

/-- The state after running a call sequence from `default()`. -/
def run {K V : Type} [DecidableEq K] (proj : V → K)
    (ops : List (Op K V)) : ProjectedHashMap V :=
  ops.foldl (step proj) (ProjectedHashMap.new V)

/-- Folding a whole list of values through `insert` (specification device
for the claims quantifying over insertion sequences). -/
def insertAll {K V : Type} [DecidableEq K] (proj : V → K)
    (s : ProjectedHashMap V) (vs : List V) : ProjectedHashMap V :=
  vs.foldl (fun t v => t.insert proj v) s

/-- One step of `lastInserted` below. -/
def lastInsStep {K V : Type} [DecidableEq K] (proj : V → K) (k : K)
    (acc : Option V) : Op K V → Option V
  | .ins v => if proj v = k then some v else acc
  | .rem _ => acc

/-- The value most recently inserted under key `k` in a call sequence
(ignoring removals), if any — the reference against which `get` is checked. -/
def lastInserted {K V : Type} [DecidableEq K] (proj : V → K) (k : K)
    (ops : List (Op K V)) : Option V :=
  ops.foldl (lastInsStep proj k) none

section Lemmas

variable {K V : Type} [DecidableEq K]

open ProjectedHashMap

theorem get_insert_self (proj : V → K) (s : ProjectedHashMap V) (v : V) :
    (s.insert proj v).get proj (proj v) = some v := by
  simp [ProjectedHashMap.get, ProjectedHashMap.insert, List.find?, helperKey]

theorem find?_filter_of_imp {α : Type} (p q : α → Bool) (l : List α)
    (h : ∀ a, p a = true → q a = true) :
    (l.filter q).find? p = l.find? p := by
  induction l with
  | nil => rfl
  | cons a l ih =>
    by_cases hq : q a = true
    · rw [List.filter_cons_of_pos hq]
      by_cases hp : p a = true
      · rw [List.find?_cons_of_pos _ hp, List.find?_cons_of_pos _ hp]
      · rw [List.find?_cons_of_neg _ (by simp [hp]),
            List.find?_cons_of_neg _ (by simp [hp]), ih]
    · have hp : p a ≠ true := fun hpa => hq (h a hpa)
      rw [List.filter_cons_of_neg hq, List.find?_cons_of_neg _ (by simp [hp]), ih]

theorem get_insert_ne (proj : V → K) (s : ProjectedHashMap V) (v : V)
    (k : K) (hk : k ≠ proj v) :
    (s.insert proj v).get proj k = s.get proj k := by
  simp only [ProjectedHashMap.get, ProjectedHashMap.insert]
  rw [List.find?_cons_of_neg _ (by simp [helperKey]; exact fun h => (hk h.symm).elim),
      find?_filter_of_imp]
  intro e he
  simp only [decide_eq_true_eq] at he ⊢
  rw [he]
  exact hk

theorem get_remove_self (proj : V → K) (s : ProjectedHashMap V) (k : K) :
    (s.remove proj k).2.get proj k = none := by
  have h : (s.repr.filter (fun e => decide (helperKey proj e ≠ k))).find?
      (fun e => decide (helperKey proj e = k)) = none := by
    rw [List.find?_eq_none]
    intro e he
    simp only [List.mem_filter, decide_eq_true_eq] at he
    simp [he.2]
  simp [ProjectedHashMap.get, ProjectedHashMap.remove, h]

theorem get_remove_ne (proj : V → K) (s : ProjectedHashMap V) (k k' : K)
    (hk : k' ≠ k) :
    (s.remove proj k).2.get proj k' = s.get proj k' := by
  simp only [ProjectedHashMap.get, ProjectedHashMap.remove]
  rw [find?_filter_of_imp]
  intro e he
  simp only [decide_eq_true_eq] at he ⊢
  rw [he]
  exact hk

theorem map_filter_eq {α β : Type} (f : α → β) (p : β → Bool) (l : List α) :
    (l.filter (fun a => p (f a))).map f = (l.map f).filter p := by
  induction l with
  | nil => rfl
  | cons a l ih =>
    by_cases h : p (f a) = true
    · simp [List.filter_cons, h, ih]
    · simp [List.filter_cons, h, ih]

theorem keys_insert (proj : V → K) (s : ProjectedHashMap V) (v : V) :
    keys proj (s.insert proj v) =
      proj v :: (keys proj s).filter (fun x => decide (x ≠ proj v)) := by
  have h := map_filter_eq (helperKey proj) (fun x => decide (x ≠ proj v)) s.repr
  simp only [ProjectedHashMap.keys, ProjectedHashMap.insert, List.map_cons]
  exact congrArg (fun t => proj v :: t) h

theorem keys_remove (proj : V → K) (s : ProjectedHashMap V) (k : K) :
    keys proj (s.remove proj k).2 = (keys proj s).filter (fun x => decide (x ≠ k)) := by
  have h := map_filter_eq (helperKey proj) (fun x => decide (x ≠ k)) s.repr
  simp only [ProjectedHashMap.keys, ProjectedHashMap.remove]
  exact h

theorem keys_eq_map_iter (proj : V → K) (s : ProjectedHashMap V) :
    keys proj s = (s.iter).map proj := by
  simp [ProjectedHashMap.keys, ProjectedHashMap.iter, helperKey]

theorem keysNodup_new (proj : V → K) : KeysNodup proj (ProjectedHashMap.new V) := by
  simp [KeysNodup, ProjectedHashMap.keys, ProjectedHashMap.new]

theorem keysNodup_insert (proj : V → K) (s : ProjectedHashMap V) (v : V)
    (h : KeysNodup proj s) : KeysNodup proj (s.insert proj v) := by
  rw [KeysNodup, keys_insert, List.nodup_cons]
  refine ⟨fun hmem => ?_, h.filter _⟩
  have := (List.mem_filter.mp hmem).2
  simp at this

theorem keysNodup_remove (proj : V → K) (s : ProjectedHashMap V) (k : K)
    (h : KeysNodup proj s) : KeysNodup proj (s.remove proj k).2 := by
  rw [KeysNodup, keys_remove]
  exact h.filter _

theorem len_eq_keys_length (proj : V → K) (s : ProjectedHashMap V) :
    s.len = (keys proj s).length := by
  simp [ProjectedHashMap.len, ProjectedHashMap.keys]

theorem length_filter_ne_of_nodup {α : Type} [DecidableEq α] (l : List α) (a : α)
    (hn : l.Nodup) (ha : a ∈ l) :
    (l.filter (fun x => decide (x ≠ a))).length + 1 = l.length := by
  induction l with
  | nil => cases ha
  | cons b l ih =>
    rcases List.nodup_cons.mp hn with ⟨hb, hl⟩
    by_cases hba : b = a
    · subst hba
      rw [List.filter_cons_of_neg (by simp)]
      rw [List.filter_eq_self.mpr (fun x hx => by
        simp only [decide_eq_true_eq]
        exact fun hxa => hb (hxa ▸ hx))]
      simp
    · rcases List.mem_cons.mp ha with h | h
      · exact absurd h.symm hba
      · rw [List.filter_cons_of_pos (by simp [hba])]
        simp only [List.length_cons]
        rw [ih hl h]

theorem get_eq_none_of_not_mem (proj : V → K) (s : ProjectedHashMap V) (k : K)
    (h : ∀ e ∈ s.repr, helperKey proj e ≠ k) : s.get proj k = none := by
  have hf : s.repr.find? (fun e => decide (helperKey proj e = k)) = none := by
    rw [List.find?_eq_none]
    intro e he
    simp [h e he]
  simp [ProjectedHashMap.get, hf]

theorem find?_key_of_mem (proj : V → K) (l : List (HashMapHelper V))
    (e : HashMapHelper V) (hn : (l.map (helperKey proj)).Nodup) (he : e ∈ l) :
    l.find? (fun x => decide (helperKey proj x = helperKey proj e)) = some e := by
  induction l with
  | nil => cases he
  | cons a l ih =>
    rcases List.mem_cons.mp he with h | h
    · subst h
      exact List.find?_cons_of_pos _ (by simp)
    · rw [List.map_cons] at hn
      rcases List.nodup_cons.mp hn with ⟨ha, hl⟩
      have hne : helperKey proj a ≠ helperKey proj e := by
        intro hcon
        exact ha (hcon ▸ List.mem_map_of_mem (helperKey proj) h)
      rw [List.find?_cons_of_neg _ (by simp [hne]), ih hl h]

theorem keysNodup_foldl (proj : V → K) (ops : List (Op K V)) :
    ∀ s : ProjectedHashMap V, KeysNodup proj s →
      KeysNodup proj (ops.foldl (step proj) s) := by
  induction ops with
  | nil => exact fun s h => h
  | cons op ops ih =>
    intro s h
    rw [List.foldl_cons]
    apply ih
    cases op with
    | ins v => exact keysNodup_insert proj s v h
    | rem k => exact keysNodup_remove proj s k h

theorem keysNodup_run (proj : V → K) (ops : List (Op K V)) :
    KeysNodup proj (run proj ops) :=
  keysNodup_foldl proj ops _ (keysNodup_new proj)

theorem keysNodup_insertAll (proj : V → K) (vs : List V) :
    ∀ s : ProjectedHashMap V, KeysNodup proj s →
      KeysNodup proj (insertAll proj s vs) := by
  induction vs with
  | nil => exact fun s h => h
  | cons v vs ih =>
    intro s h
    have h1 : insertAll proj s (v :: vs) = insertAll proj (s.insert proj v) vs := by
      simp [insertAll]
    rw [h1]
    exact ih _ (keysNodup_insert proj s v h)

theorem keys_toFinset_insert (proj : V → K) (s : ProjectedHashMap V) (v : V) :
    (keys proj (s.insert proj v)).toFinset =
      insert (proj v) (keys proj s).toFinset := by
  rw [keys_insert, List.toFinset_cons]
  ext x
  simp only [Finset.mem_insert, List.mem_toFinset, List.mem_filter, decide_eq_true_eq]
  by_cases hx : x = proj v
  · simp [hx]
  · simp [hx]

theorem keys_toFinset_insertAll (proj : V → K) (vs : List V) :
    ∀ s : ProjectedHashMap V,
      (keys proj (insertAll proj s vs)).toFinset =
        (keys proj s).toFinset ∪ (vs.map proj).toFinset := by
  induction vs with
  | nil => intro s; simp [insertAll]
  | cons v vs ih =>
    intro s
    have h1 : insertAll proj s (v :: vs) = insertAll proj (s.insert proj v) vs := by
      simp [insertAll]
    rw [h1, ih, keys_toFinset_insert]
    ext x
    simp only [Finset.mem_union, Finset.mem_insert, List.mem_toFinset, List.map_cons,
      List.toFinset_cons]
    tauto

theorem get_foldl_lastInserted (proj : V → K) (k : K) (ops : List (Op K V)) :
    ∀ (s : ProjectedHashMap V) (acc : Option V),
      ((∃ e ∈ s.repr, helperKey proj e = k) → s.get proj k = acc) →
      (∃ e ∈ (ops.foldl (step proj) s).repr, helperKey proj e = k) →
      (ops.foldl (step proj) s).get proj k = ops.foldl (lastInsStep proj k) acc := by
  induction ops with
  | nil => exact fun s acc hinv hpres => hinv hpres
  | cons op ops ih =>
    intro s acc hinv
    rw [List.foldl_cons, List.foldl_cons]
    refine ih _ _ ?_
    cases op with
    | ins v =>
      by_cases hv : proj v = k
      · intro _
        show (s.insert proj v).get proj k = if proj v = k then some v else acc
        rw [if_pos hv, ← hv]
        exact get_insert_self proj s v
      · intro hpres
        show (s.insert proj v).get proj k = if proj v = k then some v else acc
        rw [if_neg hv, get_insert_ne proj s v k (fun hk => hv hk.symm)]
        apply hinv
        obtain ⟨e, he, hek⟩ := hpres
        have he' : e ∈ ({ inner := v } : HashMapHelper V) ::
            s.repr.filter (fun x => decide (helperKey proj x ≠ proj v)) := he
        rcases List.mem_cons.mp he' with h | h
        · exfalso
          apply hv
          rw [h] at hek
          exact hek
        · exact ⟨e, List.mem_of_mem_filter h, hek⟩
    | rem kr =>
      by_cases hk : kr = k
      · intro hpres
        exfalso
        obtain ⟨e, he, hek⟩ := hpres
        have he' : e ∈ s.repr.filter (fun x => decide (helperKey proj x ≠ kr)) := he
        have hne := (List.mem_filter.mp he').2
        simp only [decide_eq_true_eq] at hne
        exact hne (hek.trans hk.symm)
      · intro hpres
        show (s.remove proj kr).2.get proj k = acc
        rw [get_remove_ne proj s kr k (fun h => hk h.symm)]
        apply hinv
        obtain ⟨e, he, hek⟩ := hpres
        have he' : e ∈ s.repr.filter (fun x => decide (helperKey proj x ≠ kr)) := he
        exact ⟨e, List.mem_of_mem_filter he', hek⟩

theorem mem_iter_iff_get (proj : V → K) (s : ProjectedHashMap V)
    (hn : KeysNodup proj s) (v : V) :
    v ∈ s.iter ↔ s.get proj (proj v) = some v := by
  constructor
  · intro hv
    obtain ⟨e, he, hev⟩ := List.mem_map.mp hv
    have hfind := find?_key_of_mem proj s.repr e hn he
    show (s.repr.find? (fun x => decide (helperKey proj x = proj v))).map
      (fun e => e.inner) = some v
    rw [← hev]
    show (s.repr.find? (fun x => decide (helperKey proj x = helperKey proj e))).map
      (fun e => e.inner) = some e.inner
    rw [hfind]
    rfl
  · intro hv
    simp only [ProjectedHashMap.get, Option.map_eq_some'] at hv
    obtain ⟨e, hfind, hev⟩ := hv
    exact hev ▸ List.mem_map_of_mem (fun e => e.inner) (List.mem_of_find?_eq_some hfind)

end Lemmas

section Claims

variable {K V : Type} [DecidableEq K]

open ProjectedHashMap

/-- Claim C1: for every container state and value `v`, calling `insert v`
when an entry whose projected key equals `proj v` is already stored replaces
that stored value with `v`: a subsequent `get` on that key returns `v` (the
new value), never the previously stored value. -/
theorem claim_C1 (proj : V → K) (s : ProjectedHashMap V) (v : V)
    (hstored : ∃ e ∈ s.repr, helperKey proj e = proj v) :
    (s.insert proj v).get proj (proj v) = some v :=
  get_insert_self proj s v

/-- Witness for C1 at a concrete instance (`proj` is the first component). -/
theorem claim_C1_witness :
    (∃ e ∈ (ProjectedHashMap.mk [⟨(1, 10)⟩, ⟨(2, 20)⟩] :
        ProjectedHashMap (Nat × Nat)).repr,
      helperKey (fun p => p.1) e = (1 : Nat)) ∧
    ((ProjectedHashMap.mk [⟨(1, 10)⟩, ⟨(2, 20)⟩] :
        ProjectedHashMap (Nat × Nat)).insert (fun p => p.1) (1, 99)).get
      (fun p => p.1) 1 = some (1, 99) :=
  ⟨⟨⟨(1, 10)⟩, by simp, rfl⟩,
   claim_C1 (fun p => p.1) (ProjectedHashMap.mk [⟨(1, 10)⟩, ⟨(2, 20)⟩]) (1, 99)
     ⟨⟨(1, 10)⟩, by simp, rfl⟩⟩

/-- Claim C2: at most one stored value per distinct projected key: the
key-uniqueness predicate holds for the empty container from `default()` and
is preserved by every `insert` and every `remove`, for all arguments. -/
theorem claim_C2 (proj : V → K) :
    KeysNodup proj (ProjectedHashMap.new V) ∧
    (∀ (s : ProjectedHashMap V) (v : V),
      KeysNodup proj s → KeysNodup proj (s.insert proj v)) ∧
    (∀ (s : ProjectedHashMap V) (k : K),
      KeysNodup proj s → KeysNodup proj (s.remove proj k).2) :=
  ⟨keysNodup_new proj,
   fun s v h => keysNodup_insert proj s v h,
   fun s k h => keysNodup_remove proj s k h⟩

/-- Witness for C2 at a concrete instance. -/
theorem claim_C2_witness :
    KeysNodup (fun p : Nat × Nat => p.1)
      (ProjectedHashMap.mk [⟨(1, 10)⟩]) ∧
    KeysNodup (fun p : Nat × Nat => p.1)
      ((ProjectedHashMap.mk [⟨(1, 10)⟩]).insert (fun p => p.1) (2, 20)) :=
  ⟨by unfold KeysNodup; decide,
   (claim_C2 (fun p : Nat × Nat => p.1)).2.1 (ProjectedHashMap.mk [⟨(1, 10)⟩])
     (2, 20) (by unfold KeysNodup; decide)⟩

/-- Claim C3: for every finite sequence of `insert` calls applied to the
container from `default()`, after the sequence completes `len()` equals the
number of distinct projected keys among the inserted values, not the number
of insert calls. -/
theorem claim_C3 (proj : V → K) (vs : List V) :
    (insertAll proj (ProjectedHashMap.new V) vs).len = (vs.map proj).toFinset.card := by
  have hnd := keysNodup_insertAll proj vs (ProjectedHashMap.new V) (keysNodup_new proj)
  have hfin := keys_toFinset_insertAll proj vs (ProjectedHashMap.new V)
  rw [len_eq_keys_length proj, ← List.toFinset_card_of_nodup hnd, hfin]
  simp [ProjectedHashMap.keys, ProjectedHashMap.new]

/-- Claim C4: for every state reached by a call sequence and every key `k`:
when some stored value projects to `k`, `get k` returns the value most
recently inserted under `k`; otherwise `get k` returns `none`.  (`get`
takes `&self` in the source and is embedded as a pure function of the
state, mutating nothing.) -/
theorem claim_C4 (proj : V → K) (ops : List (Op K V)) (k : K) :
    ((∃ e ∈ (run proj ops).repr, helperKey proj e = k) →
      (run proj ops).get proj k = lastInserted proj k ops) ∧
    ((∀ e ∈ (run proj ops).repr, helperKey proj e ≠ k) →
      (run proj ops).get proj k = none) := by
  have hrun : run proj ops = ops.foldl (step proj) (ProjectedHashMap.new V) := rfl
  have hlast : lastInserted proj k ops = ops.foldl (lastInsStep proj k) none := rfl
  constructor
  · intro hpres
    rw [hrun] at hpres ⊢
    rw [hlast]
    refine get_foldl_lastInserted proj k ops (ProjectedHashMap.new V) none ?_ hpres
    rintro ⟨e, he, -⟩
    exact absurd he (List.not_mem_nil e)
  · exact get_eq_none_of_not_mem proj _ k

/-- Witness for C4 at a concrete call sequence: insert key 1, insert key 2,
insert key 1 again (overwriting), remove key 2; `get 1` then returns the
most recently inserted value under key 1. -/
theorem claim_C4_witness :
    (∃ e ∈ (run (fun p : Nat × Nat => p.1)
        [Op.ins (1, 5), Op.ins (2, 6), Op.ins (1, 7), Op.rem 2]).repr,
      helperKey (fun p => p.1) e = (1 : Nat)) ∧
    (run (fun p : Nat × Nat => p.1)
        [Op.ins (1, 5), Op.ins (2, 6), Op.ins (1, 7), Op.rem 2]).get (fun p => p.1) 1 =
      lastInserted (fun p : Nat × Nat => p.1) 1
        [Op.ins (1, 5), Op.ins (2, 6), Op.ins (1, 7), Op.rem 2] :=
  ⟨⟨⟨(1, 7)⟩, by decide, rfl⟩,
   (claim_C4 (fun p : Nat × Nat => p.1)
       [Op.ins (1, 5), Op.ins (2, 6), Op.ins (1, 7), Op.rem 2] 1).1
     ⟨⟨(1, 7)⟩, by decide, rfl⟩⟩

/-- Claim C5: `remove k` returns `true` and deletes the matching entry when
one is present (a subsequent `get k` returns `none`); when no entry matches,
it returns `false` and leaves the container completely unchanged.  All
operations are total in the embedding: no error is signalled. -/
theorem claim_C5 (proj : V → K) (s : ProjectedHashMap V) (k : K) :
    ((∃ e ∈ s.repr, helperKey proj e = k) →
      (s.remove proj k).1 = true ∧ (s.remove proj k).2.get proj k = none) ∧
    ((∀ e ∈ s.repr, helperKey proj e ≠ k) →
      (s.remove proj k).1 = false ∧ (s.remove proj k).2 = s) := by
  constructor
  · intro hpres
    refine ⟨?_, get_remove_self proj s k⟩
    show s.repr.any (fun e => decide (helperKey proj e = k)) = true
    rw [List.any_eq_true]
    obtain ⟨e, he, hek⟩ := hpres
    exact ⟨e, he, by simp [hek]⟩
  · intro habs
    constructor
    · show s.repr.any (fun e => decide (helperKey proj e = k)) = false
      rw [← Bool.not_eq_true, List.any_eq_true]
      rintro ⟨e, he, hek⟩
      simp only [decide_eq_true_eq] at hek
      exact habs e he hek
    · have hf : s.repr.filter (fun e => decide (helperKey proj e ≠ k)) = s.repr :=
        List.filter_eq_self.mpr (fun e he => by simp [habs e he])
      show (⟨s.repr.filter (fun e => decide (helperKey proj e ≠ k))⟩ :
        ProjectedHashMap V) = s
      rw [hf]

/-- Witness for C5 at a concrete instance: removing a present key. -/
theorem claim_C5_witness :
    (∃ e ∈ (ProjectedHashMap.mk [⟨(1, 10)⟩, ⟨(2, 20)⟩] :
        ProjectedHashMap (Nat × Nat)).repr,
      helperKey (fun p => p.1) e = (2 : Nat)) ∧
    ((ProjectedHashMap.mk [⟨(1, 10)⟩, ⟨(2, 20)⟩] :
        ProjectedHashMap (Nat × Nat)).remove (fun p => p.1) 2).1 = true ∧
    ((ProjectedHashMap.mk [⟨(1, 10)⟩, ⟨(2, 20)⟩] :
        ProjectedHashMap (Nat × Nat)).remove (fun p => p.1) 2).2.get
      (fun p => p.1) 2 = none :=
  ⟨⟨⟨(2, 20)⟩, by simp, rfl⟩,
   (claim_C5 (fun p : Nat × Nat => p.1)
       (ProjectedHashMap.mk [⟨(1, 10)⟩, ⟨(2, 20)⟩]) 2).1 ⟨⟨(2, 20)⟩, by simp, rfl⟩⟩

/-- Claim C6: for two values that differ as whole records but share the same
projected key, inserting the first then the second yields a container with a
single entry for that key holding the second value: collision is decided by
key equality alone, never by value-level equality. -/
theorem claim_C6 (proj : V → K) (v1 v2 : V) (hne : v1 ≠ v2)
    (hkey : proj v1 = proj v2) :
    ((ProjectedHashMap.new V).insert proj v1).insert proj v2 =
      ProjectedHashMap.mk [⟨v2⟩] ∧
    (((ProjectedHashMap.new V).insert proj v1).insert proj v2).get proj (proj v1) =
      some v2 ∧
    (((ProjectedHashMap.new V).insert proj v1).insert proj v2).len = 1 := by
  have h1 : ((ProjectedHashMap.new V).insert proj v1).insert proj v2 =
      ProjectedHashMap.mk [⟨v2⟩] := by
    simp [ProjectedHashMap.insert, ProjectedHashMap.new, helperKey, hkey]
  refine ⟨h1, ?_, ?_⟩
  · rw [h1, hkey]
    simp [ProjectedHashMap.get, List.find?, helperKey]
  · rw [h1]
    rfl

/-- Witness for C6 at a concrete instance: `(1, 2)` and `(1, 3)` differ as
records but share key 1. -/
theorem claim_C6_witness :
    (((1, 2) : Nat × Nat) ≠ (1, 3)) ∧
    ((ProjectedHashMap.new (Nat × Nat)).insert (fun p => p.1) (1, 2)).insert
        (fun p => p.1) (1, 3) = ProjectedHashMap.mk [⟨(1, 3)⟩] :=
  ⟨by decide,
   (claim_C6 (fun p : Nat × Nat => p.1) (1, 2) (1, 3) (by decide) rfl).1⟩

/-- Claim C7: for every state reached by a finite sequence of inserts and
removes from `default()`, `iter()` yields exactly the multiset of
currently-stored values — each stored value appears exactly once (the list
is duplicate-free, and a value is yielded iff it is stored, i.e. iff `get`
on its key returns it), in some unspecified order. -/
theorem claim_C7 (proj : V → K) (ops : List (Op K V)) :
    (run proj ops).iter.Nodup ∧
    (∀ v : V, v ∈ (run proj ops).iter ↔ (run proj ops).get proj (proj v) = some v) := by
  have hn := keysNodup_run proj ops
  refine ⟨?_, fun v => mem_iter_iff_get proj _ hn v⟩
  rw [KeysNodup, keys_eq_map_iter] at hn
  exact List.Nodup.of_map proj hn

/-- Claim C8: for every container state, `is_empty()` returns `true` iff
`len()` returns 0. -/
theorem claim_C8 (s : ProjectedHashMap V) :
    s.is_empty = true ↔ s.len = 0 := by
  simp [ProjectedHashMap.is_empty, ProjectedHashMap.len, List.isEmpty_iff,
    List.length_eq_zero]

/-- Claim C9: mutating operations affect no entry other than the targeted
key: `get` at any key other than the projection of the inserted value is
unchanged by `insert`, and `get` at any key other than the removed key is
unchanged by `remove`. -/
theorem claim_C9 (proj : V → K) :
    (∀ (s : ProjectedHashMap V) (v : V) (k : K), k ≠ proj v →
      (s.insert proj v).get proj k = s.get proj k) ∧
    (∀ (s : ProjectedHashMap V) (kr k : K), k ≠ kr →
      (s.remove proj kr).2.get proj k = s.get proj k) :=
  ⟨fun s v k h => get_insert_ne proj s v k h,
   fun s kr k h => get_remove_ne proj s kr k h⟩

/-- Witness for C9 at a concrete instance: inserting under key 1 leaves the
entry under key 2 untouched. -/
theorem claim_C9_witness :
    ((2 : Nat) ≠ 1) ∧
    ((ProjectedHashMap.mk [⟨(2, 20)⟩] : ProjectedHashMap (Nat × Nat)).insert
        (fun p => p.1) (1, 5)).get (fun p => p.1) 2 =
      (ProjectedHashMap.mk [⟨(2, 20)⟩] : ProjectedHashMap (Nat × Nat)).get
        (fun p => p.1) 2 :=
  ⟨by decide,
   (claim_C9 (fun p : Nat × Nat => p.1)).1 (ProjectedHashMap.mk [⟨(2, 20)⟩])
     (1, 5) 2 (by decide)⟩

/-- Claim C10: on a state satisfying the key-uniqueness invariant, `insert v`
leaves `len()` unchanged when an entry with key `proj v` was already present
and increases `len()` by exactly 1 otherwise; in particular it never removes
more than one prior entry. -/
theorem claim_C10 (proj : V → K) (s : ProjectedHashMap V) (v : V)
    (hn : KeysNodup proj s) :
    ((∃ e ∈ s.repr, helperKey proj e = proj v) →
      (s.insert proj v).len = s.len) ∧
    ((∀ e ∈ s.repr, helperKey proj e ≠ proj v) →
      (s.insert proj v).len = s.len + 1) := by
  constructor
  · intro hpres
    have hmem : proj v ∈ keys proj s := by
      obtain ⟨e, he, hek⟩ := hpres
      exact hek ▸ List.mem_map_of_mem (helperKey proj) he
    have hlen := length_filter_ne_of_nodup (keys proj s) (proj v) hn hmem
    rw [len_eq_keys_length proj, len_eq_keys_length proj, keys_insert,
      List.length_cons]
    exact hlen
  · intro habs
    have hf : (keys proj s).filter (fun x => decide (x ≠ proj v)) = keys proj s := by
      rw [List.filter_eq_self]
      intro x hx
      obtain ⟨e, he, hex⟩ := List.mem_map.mp hx
      simp only [decide_eq_true_eq]
      exact hex ▸ habs e he
    rw [len_eq_keys_length proj, len_eq_keys_length proj, keys_insert,
      List.length_cons, hf]

/-- Witness for C10 at a concrete instance: inserting under an occupied key
leaves the length unchanged. -/
theorem claim_C10_witness :
    KeysNodup (fun p : Nat × Nat => p.1)
      (ProjectedHashMap.mk [⟨(1, 10)⟩, ⟨(2, 20)⟩]) ∧
    ((ProjectedHashMap.mk [⟨(1, 10)⟩, ⟨(2, 20)⟩] :
        ProjectedHashMap (Nat × Nat)).insert (fun p => p.1) (1, 99)).len =
      (ProjectedHashMap.mk [⟨(1, 10)⟩, ⟨(2, 20)⟩] :
        ProjectedHashMap (Nat × Nat)).len :=
  ⟨by unfold KeysNodup; decide,
   (claim_C10 (fun p : Nat × Nat => p.1)
       (ProjectedHashMap.mk [⟨(1, 10)⟩, ⟨(2, 20)⟩]) (1, 99)
       (by unfold KeysNodup; decide)).1 ⟨⟨(1, 10)⟩, by simp, rfl⟩⟩

end Claims

end ProjectedHashMapSpec
